import Mathlib

/-!
Verification of the checkpointed batch clue-generation pipeline
(`backend/scripts/generate_clues.py`).

The Python source is shallowly embedded: each function of the script
becomes a Lean definition over explicit data, external effects (the
generation-service call, `time.sleep`, file-system writes) become
oracles or explicit effect traces, and exceptions become sum types.
-/

namespace GenerateClues

/-! ### Constants (lines 38-41 of `generate_clues.py`) -/

def BATCH_SIZE : Nat := 100

def MODEL : String := "claude-3-5-haiku-20241022"

def MAX_RETRIES : Nat := 3

def RETRY_DELAY : Nat := 5

/-! ### Enrichment client: `generate_clues_batch` (lines 64-122)

One attempt of the retry loop either raises `anthropic.APIError`,
raises `json.JSONDecodeError` while parsing the response text, or
produces a parsed JSON array of clue strings.  The service is an
oracle assigning an outcome to each attempt number. -/

inductive AttemptResult where
  | apiError
  | parseError
  | parsed (clues : List String)
deriving DecidableEq, Repr

/-- Line 122: `return [f"Define: {w}" for w in words]`. -/
def fallbackClues (words : List String) : List String :=
  words.map (fun w => "Define: " ++ w)

/-- Lines 105-106: `while len(clues) < len(words): clues.append(f"Define: {words[len(clues)]}")`. -/
def padClues (words : List String) (clues : List String) : List String :=
  if h : clues.length < words.length then
    padClues words (clues ++ ["Define: " ++ words[clues.length]])
  else
    clues
termination_by words.length - clues.length
decreasing_by simp [List.length_append]; omega

/-- Lines 102-107: if the parsed length differs from the word count,
pad with fallback clues then truncate (`clues = clues[:len(words)]`). -/
def correctClues (words clues : List String) : List String :=
  if clues.length ≠ words.length then
    (padClues words clues).take words.length
  else
    clues

/-- The retry loop of lines 82-122 over the listed attempt outcomes:
the first attempt whose response parses returns the (length-corrected)
clues; an exhausted list falls through to the fallback return. -/
def runAttempts (words : List String) : List AttemptResult → List String
  | [] => fallbackClues words
  | AttemptResult.parsed clues :: _ => correctClues words clues
  | AttemptResult.apiError :: rest => runAttempts words rest
  | AttemptResult.parseError :: rest => runAttempts words rest

/-- `generate_clues_batch(client, words)`: `for attempt in range(MAX_RETRIES)`
with `oracle` giving each attempt's outcome. -/
def generate_clues_batch (oracle : Nat → AttemptResult) (words : List String) : List String :=
  runAttempts words ((List.range MAX_RETRIES).map oracle)

/-! #### Closed form of the pad/truncate correction -/

theorem padClues_eq_aux (words : List String) :
    ∀ fuel clues, words.length - clues.length ≤ fuel →
      padClues words clues =
        clues ++ (words.drop clues.length).map (fun w => "Define: " ++ w) := by
  intro fuel
  induction fuel with
  | zero =>
    intro clues hle
    rw [padClues, dif_neg (by omega)]
    rw [List.drop_eq_nil_of_le (by omega)]
    simp
  | succ n ih =>
    intro clues hle
    rw [padClues]
    by_cases hlt : clues.length < words.length
    · rw [dif_pos hlt]
      rw [ih (clues ++ ["Define: " ++ words[clues.length]]) (by simp; omega)]
      rw [List.append_assoc]
      congr 1
      have hdrop : words.drop clues.length =
          words[clues.length] :: words.drop (clues.length + 1) :=
        List.drop_eq_getElem_cons hlt
      rw [hdrop, List.map_cons, List.singleton_append]
      simp [List.length_append]
    · rw [dif_neg hlt]
      rw [List.drop_eq_nil_of_le (by omega)]
      simp

theorem padClues_eq (words clues : List String) :
    padClues words clues =
      clues ++ (words.drop clues.length).map (fun w => "Define: " ++ w) :=
  padClues_eq_aux words (words.length - clues.length) clues le_rfl

theorem correctClues_eq (words clues : List String) :
    correctClues words clues =
      (clues ++ (words.drop clues.length).map (fun w => "Define: " ++ w)).take
        words.length := by
  unfold correctClues
  by_cases h : clues.length = words.length
  · rw [if_neg (by omega)]
    rw [List.drop_eq_nil_of_le (by omega)]
    simp [h]
  · rw [if_pos (by omega), padClues_eq]

theorem correctClues_length (words clues : List String) :
    (correctClues words clues).length = words.length := by
  rw [correctClues_eq]
  simp
  omega

theorem runAttempts_length (words : List String) (l : List AttemptResult) :
    (runAttempts words l).length = words.length := by
  induction l with
  | nil => simp [runAttempts, fallbackClues]
  | cons r rest ih =>
    cases r with
    | apiError => simpa [runAttempts] using ih
    | parseError => simpa [runAttempts] using ih
    | parsed clues => simp [runAttempts, correctClues_length]

theorem runAttempts_all_fail (words : List String) (l : List AttemptResult)
    (h : ∀ r ∈ l, ∀ cs, r ≠ AttemptResult.parsed cs) :
    runAttempts words l = fallbackClues words := by
  induction l with
  | nil => rfl
  | cons r rest ih =>
    cases r with
    | apiError => exact ih (fun r hr => h r (List.mem_cons_of_mem _ hr))
    | parseError => exact ih (fun r hr => h r (List.mem_cons_of_mem _ hr))
    | parsed clues => exact absurd rfl (h _ (List.mem_cons_self _ _) clues)

/-- C1: for every list of batch words, `generate_clues_batch` returns a list
of clues (it is a total function of the attempt outcomes, never propagating a
failure), and when every one of the `MAX_RETRIES` attempts fails — transient
service error or unparseable response — it returns the full fallback batch
whose i-th element is exactly `"Define: <word_i>"` for the i-th input word. -/
theorem generate_clues_batch_exhausted_fallback (oracle : Nat → AttemptResult)
    (words : List String)
    (hfail : ∀ t, t < MAX_RETRIES → ∀ cs, oracle t ≠ AttemptResult.parsed cs) :
    generate_clues_batch oracle words = fallbackClues words ∧
    ∀ i : Nat, (generate_clues_batch oracle words)[i]? =
      (words[i]?).map (fun w => "Define: " ++ w) := by
  have hall : ∀ r ∈ (List.range MAX_RETRIES).map oracle,
      ∀ cs, r ≠ AttemptResult.parsed cs := by
    intro r hr cs
    rcases List.mem_map.mp hr with ⟨t, ht, rfl⟩
    exact hfail t (List.mem_range.mp ht) cs
  have h : generate_clues_batch oracle words = fallbackClues words :=
    runAttempts_all_fail words _ hall
  refine ⟨h, fun i => ?_⟩
  rw [h]
  exact List.getElem?_map _ _ _

theorem generate_clues_batch_exhausted_fallback_witness :
    generate_clues_batch (fun _ => AttemptResult.apiError) ["cat", "dog"] =
      ["Define: cat", "Define: dog"] := by
  have h := generate_clues_batch_exhausted_fallback (fun _ => AttemptResult.apiError)
    ["cat", "dog"] (fun _ _ cs hc => AttemptResult.noConfusion hc)
  rw [h.1]
  rfl

/-- C2: for every input list of K words and every parsed response,
`generate_clues_batch` returns exactly K clues; the length correction keeps
each parsed clue at its position, fills each missing trailing position i with
exactly `"Define: <words[i]>"`, drops extra trailing entries, and is total
(never raises). -/
theorem generate_clues_batch_length_correction (oracle : Nat → AttemptResult)
    (words clues : List String) :
    (generate_clues_batch oracle words).length = words.length ∧
    (correctClues words clues).length = words.length ∧
    (∀ i : Nat, i < clues.length → i < words.length →
      (correctClues words clues)[i]? = clues[i]?) ∧
    (∀ i : Nat, clues.length ≤ i → i < words.length →
      (correctClues words clues)[i]? = (words[i]?).map (fun w => "Define: " ++ w)) ∧
    (words.length < clues.length →
      correctClues words clues = clues.take words.length) := by
  refine ⟨runAttempts_length words _, correctClues_length words clues, ?_, ?_, ?_⟩
  · intro i hic hiw
    rw [correctClues_eq, List.getElem?_take, if_pos hiw, List.getElem?_append,
      if_pos hic]
  · intro i hci hiw
    rw [correctClues_eq, List.getElem?_take, if_pos hiw,
      List.getElem?_append_right hci, List.getElem?_map, List.getElem?_drop]
    have hidx : clues.length + (i - clues.length) = i := by omega
    rw [hidx]
  · intro hlt
    rw [correctClues, if_pos (by omega), padClues_eq,
      List.drop_eq_nil_of_le (by omega)]
    simp

theorem generate_clues_batch_length_correction_witness :
    (correctClues ["ant", "bee", "cow"] ["x"])[0]? = some "x" ∧
    (correctClues ["ant", "bee", "cow"] ["x"])[1]? = some "Define: bee" := by
  have h := generate_clues_batch_length_correction (fun _ => AttemptResult.apiError)
    ["ant", "bee", "cow"] ["x"]
  constructor
  · rw [h.2.2.1 0 (by decide) (by decide)]
    rfl
  · rw [h.2.2.2.1 1 (by decide) (by decide)]
    rfl

/-! ### Retry sleeps (lines 111-119)

The two exception handlers of the retry loop sleep before the next
attempt: the `json.JSONDecodeError` handler sleeps `RETRY_DELAY`, the
`anthropic.APIError` handler sleeps `RETRY_DELAY * (attempt + 1)`;
neither sleeps after the final attempt. -/

inductive FailureKind where
  | parseFailure
  | serviceError
deriving DecidableEq, Repr

/-- The sleep (in seconds) performed by the handler for a failure of the
given kind at the given 0-based attempt; `none` when no sleep happens. -/
def retrySleep (kind : FailureKind) (attempt : Nat) : Option Nat :=
  match kind with
  | FailureKind.parseFailure =>
      if attempt < MAX_RETRIES - 1 then some RETRY_DELAY else none
  | FailureKind.serviceError =>
      if attempt < MAX_RETRIES - 1 then some (RETRY_DELAY * (attempt + 1)) else none

/-- C9 as stated is false: on a parse failure the delay does not strictly
increase with the attempt number — attempts 0 and 1 (both non-final, since
`MAX_RETRIES = 3`) sleep the same constant `RETRY_DELAY = 5` seconds. -/
theorem retrySleep_parse_constant :
    retrySleep FailureKind.parseFailure 0 = some 5 ∧
    retrySleep FailureKind.parseFailure 1 = some 5 ∧
    ¬ (5 : Nat) < 5 := by decide

/-- C9 amended: on every non-final attempt the client sleeps before the
next attempt — a service error backs off linearly (`RETRY_DELAY * (attempt+1)`,
strictly increasing with the attempt), while a parse failure sleeps the
constant `RETRY_DELAY`; no handler sleeps on the final attempt. -/
theorem retrySleep_policy (t u : Nat) (htu : t < u) (hu : u < MAX_RETRIES - 1) :
    retrySleep FailureKind.parseFailure t = some RETRY_DELAY ∧
    retrySleep FailureKind.parseFailure u = some RETRY_DELAY ∧
    retrySleep FailureKind.serviceError t = some (RETRY_DELAY * (t + 1)) ∧
    retrySleep FailureKind.serviceError u = some (RETRY_DELAY * (u + 1)) ∧
    RETRY_DELAY * (t + 1) < RETRY_DELAY * (u + 1) ∧
    retrySleep FailureKind.parseFailure (MAX_RETRIES - 1) = none ∧
    retrySleep FailureKind.serviceError (MAX_RETRIES - 1) = none := by
  have h1 : t < MAX_RETRIES - 1 := lt_trans htu hu
  refine ⟨?_, ?_, ?_, ?_, ?_, ?_, ?_⟩
  · rw [retrySleep, if_pos h1]
  · rw [retrySleep, if_pos hu]
  · rw [retrySleep, if_pos h1]
  · rw [retrySleep, if_pos hu]
  · show 5 * (t + 1) < 5 * (u + 1)
    omega
  · rw [retrySleep, if_neg (lt_irrefl _)]
  · rw [retrySleep, if_neg (lt_irrefl _)]

theorem retrySleep_policy_witness :
    retrySleep FailureKind.serviceError 0 = some 5 ∧
    retrySleep FailureKind.serviceError 1 = some 10 := by
  have h := retrySleep_policy 0 1 (by decide) (by decide)
  constructor
  · rw [h.2.2.1]
    decide
  · rw [h.2.2.2.1]
    decide

/-! ### Checkpoint persistence: `save_progress` (lines 58-61)

`save_progress` does `open(PROGRESS_FILE, 'w')` — which truncates the
progress file in place — and then `json.dump(progress, f)`.  There is no
temporary file and no atomic rename.  The file-system effects of one save
are modelled as a trace over the persisted file's contents
(`none` = absent). -/

inductive FsEffect where
  | truncate
  | writeData (s : String)
deriving DecidableEq, Repr

def applyFsEffect : Option String → FsEffect → Option String
  | _, FsEffect.truncate => some ""
  | c, FsEffect.writeData s => some (c.getD "" ++ s)

def applyFsEffects (c : Option String) (effs : List FsEffect) : Option String :=
  effs.foldl applyFsEffect c

/-- The effect trace of `save_progress(progress)` where `payload` is the
serialized checkpoint written by `json.dump`. -/
def save_progress_effects (payload : String) : List FsEffect :=
  [FsEffect.truncate, FsEffect.writeData payload]

/-- C3 as stated is false: `save_progress` has no write-to-temp-then-replace
step, so after the prefix of its effects that ends at the in-place truncation
(a crash during save) the persisted checkpoint file is empty — neither the
previous good checkpoint nor the complete new one. -/
theorem save_progress_not_atomic :
    ¬ ∀ n : Nat,
        applyFsEffects (some "old") ((save_progress_effects "new").take n) = some "old" ∨
        applyFsEffects (some "old") ((save_progress_effects "new").take n) =
          some "new" := by
  intro h
  have h1 := h 1
  revert h1
  decide

/-- C3 amended: `save_progress` rewrites the checkpoint file in place
(truncate, then write): a completed save leaves exactly the new serialized
checkpoint, but the intermediate state after the truncation is an empty file,
so a crash during save can leave a newer-but-corrupt checkpoint in place of
the previous good one. -/
theorem save_progress_in_place (old : Option String) (payload : String) :
    applyFsEffects old (save_progress_effects payload) = some payload ∧
    applyFsEffects old ((save_progress_effects payload).take 1) = some "" := by
  constructor
  · show some ((some "").getD "" ++ payload) = some payload
    simp
  · rfl

/-! ### Checkpoint load: `load_progress` (lines 50-55) -/

/-- The persisted progress value: `{'completed_indices': [...], 'clues': {...}}`.
The clue map keys are decimal renderings of indices (`str(idx)`), modelled by
the indices themselves. -/
structure Progress where
  completed_indices : List Nat
  clues : List (Nat × String)
deriving DecidableEq, Repr

/-- The empty checkpoint of line 55. -/
def emptyProgress : Progress := ⟨[], []⟩

/-- States of the persisted progress file as `load_progress` can observe it:
missing, present with contents `json.load` parses to a checkpoint, or present
with contents `json.load` rejects. -/
inductive ProgressFile where
  | absent
  | parseable (p : Progress)
  | corrupt
deriving DecidableEq, Repr

/-- The exception `json.load` raises on unparseable contents, which
`load_progress` does not catch; the spec's taxonomy labels this condition
CorruptCheckpointError. -/
inductive LoadError where
  | jsonDecodeError
deriving DecidableEq, Repr

/-- `load_progress()`: return the parsed file if it exists, the empty
checkpoint if it does not; a parse failure propagates to the caller. -/
def load_progress : ProgressFile → Except LoadError Progress
  | ProgressFile.absent => Except.ok emptyProgress
  | ProgressFile.parseable p => Except.ok p
  | ProgressFile.corrupt => Except.error LoadError.jsonDecodeError

/-- C8's final sentence is false: a persisted file whose contents parse to
exactly the empty checkpoint exists and yet `load_progress` returns the empty
checkpoint for it, so "an empty checkpoint is returned only when no
checkpoint file exists" does not hold of the code. -/
theorem load_progress_empty_from_existing_file :
    load_progress (ProgressFile.parseable emptyProgress) = Except.ok emptyProgress ∧
    ProgressFile.parseable emptyProgress ≠ ProgressFile.absent := by
  refine ⟨rfl, ?_⟩
  decide

/-- C8 amended: when the persisted file exists but cannot be parsed,
`load_progress` surfaces the parse error to the caller and never returns a
checkpoint (progress is never silently discarded); the empty checkpoint is
returned exactly when no file exists or the existing file itself parses to
the empty checkpoint. -/
theorem load_progress_corrupt_surfaces (f : ProgressFile) :
    load_progress ProgressFile.corrupt = Except.error LoadError.jsonDecodeError ∧
    load_progress ProgressFile.absent = Except.ok emptyProgress ∧
    (load_progress f = Except.ok emptyProgress ↔
      f = ProgressFile.absent ∨ f = ProgressFile.parseable emptyProgress) := by
  refine ⟨rfl, rfl, ?_⟩
  cases f with
  | absent => simp [load_progress]
  | parseable p => simp [load_progress, emptyProgress]
  | corrupt => simp [load_progress]

theorem load_progress_corrupt_surfaces_witness :
    load_progress ProgressFile.corrupt = Except.error LoadError.jsonDecodeError :=
  (load_progress_corrupt_surfaces ProgressFile.corrupt).1

/-! ### Pending-index computation on resume (lines 155-160)

`end_idx = min(total_words, args.limit + start_idx) if args.limit else
total_words` followed by
`indices_to_process = [i for i in range(start_idx, end_idx) if i not in completed_set]`.
`args.limit` is `None` when absent; Python's truthiness makes both `None`
and `0` select the no-limit branch. -/

/-- Python truthiness of the optional `int` value `args.limit`. -/
def intOptTruthy : Option Int → Bool
  | none => false
  | some n => n != 0

/-- Line 157. -/
def end_idx (total_words start_idx : Int) (limit : Option Int) : Int :=
  if intOptTruthy limit then min total_words (limit.getD 0 + start_idx) else total_words

/-- Python `range(a, b)` as a list of integers. -/
def pyRange (a b : Int) : List Int :=
  (List.range (b - a).toNat).map (fun j : Nat => a + (j : Int))

/-- Line 160. -/
def indices_to_process (start_idx end_i : Int) (completed_set : Finset Int) : List Int :=
  (pyRange start_idx end_i).filter (fun i => decide (i ∉ completed_set))

/-- Modelled from the claim's wording (not from the source): the indices in
`[start, min(N, start+limit))` — or `[start, N)` when no limit is given —
that are not in the checkpoint's completed set, in increasing order. -/
def claimedPending (total_words start_idx : Int) (limit : Option Int)
    (completed_set : Finset Int) : List Int :=
  match limit with
  | some l => (pyRange start_idx (min total_words (start_idx + l))).filter
      (fun i => decide (i ∉ completed_set))
  | none => (pyRange start_idx total_words).filter (fun i => decide (i ∉ completed_set))

theorem mem_pyRange (a b i : Int) : i ∈ pyRange a b ↔ a ≤ i ∧ i < b := by
  unfold pyRange
  simp only [List.mem_map, List.mem_range]
  constructor
  · rintro ⟨j, hj, rfl⟩
    omega
  · intro h
    exact ⟨(i - a).toNat, by omega, by omega⟩

theorem pyRange_sorted (a b : Int) : (pyRange a b).Sorted (· < ·) := by
  unfold pyRange
  refine List.Pairwise.map _ ?_ (List.sorted_lt_range _)
  intro x y hxy
  omega

/-- C4 as stated is false at `--limit 0`: Python's truthiness makes a limit
of 0 behave as "no limit", so with 2 words, start 0, limit 0 and an empty
checkpoint the code processes `[0, 1]` while the claim's interval
`[start, min(N, start+limit))` is empty. -/
theorem indices_to_process_limit_zero :
    indices_to_process 0 (end_idx 2 0 (some 0)) ∅ = [0, 1] ∧
    claimedPending 2 0 (some 0) ∅ = [] ∧
    ([0, 1] : List Int) ≠ [] := by
  refine ⟨by decide, by decide, by decide⟩

/-- C4 amended: the pending-index list computed on resume is exactly the
indices in `[start, E)` not in the checkpoint's completed set, in strictly
increasing order (so no completed index is ever re-sent), where
`E = min(N, start+limit)` for a nonzero limit and `E = N` when the limit is
absent — or zero, which Python truthiness treats as absent. -/
theorem indices_to_process_pending (total_words start_idx : Int) (limit : Option Int)
    (completed_set : Finset Int) :
    (∀ i : Int,
      i ∈ indices_to_process start_idx (end_idx total_words start_idx limit)
          completed_set ↔
        start_idx ≤ i ∧ i < end_idx total_words start_idx limit ∧
          i ∉ completed_set) ∧
    (indices_to_process start_idx (end_idx total_words start_idx limit)
        completed_set).Sorted (· < ·) ∧
    (∀ i ∈ indices_to_process start_idx (end_idx total_words start_idx limit)
        completed_set, i ∉ completed_set) ∧
    (limit = none ∨ limit = some 0 →
      end_idx total_words start_idx limit = total_words) ∧
    (∀ l : Int, limit = some l → l ≠ 0 →
      end_idx total_words start_idx limit = min total_words (l + start_idx)) := by
  refine ⟨?_, ?_, ?_, ?_, ?_⟩
  · intro i
    unfold indices_to_process
    rw [List.mem_filter, mem_pyRange]
    simp [and_assoc]
  · exact (pyRange_sorted _ _).filter _
  · intro i hi
    unfold indices_to_process at hi
    rw [List.mem_filter] at hi
    simpa using hi.2
  · rintro (rfl | rfl) <;> simp [end_idx, intOptTruthy]
  · rintro l rfl hl
    unfold end_idx intOptTruthy
    rw [if_pos (by simpa using hl)]
    rfl

theorem indices_to_process_pending_witness :
    (2 : Int) ∉ indices_to_process 1 (end_idx 5 1 (some 2)) ({2} : Finset Int) ∧
    (1 : Int) ∈ indices_to_process 1 (end_idx 5 1 (some 2)) ({2} : Finset Int) := by
  have h := indices_to_process_pending 5 1 (some 2) ({2} : Finset Int)
  constructor
  · intro hmem
    exact ((h.1 2).mp hmem).2.2 (by decide)
  · exact (h.1 1).mpr ⟨by decide, by decide, by decide⟩

/-! ### The batch loop's partition (lines 174-184)

`batch_count = (P + BATCH_SIZE - 1) // BATCH_SIZE` and, for each
`batch_num` in `range(batch_count)`, the contiguous slice
`indices_to_process[batch_num*B : min(batch_num*B + B, P)]`.
The batch size is kept as a parameter `B`; the run uses `B = BATCH_SIZE`. -/

/-- Python slice `l[a:b]` for natural bounds `a ≤ b`. -/
def pySlice (l : List Int) (a b : Nat) : List Int :=
  (l.drop a).take (b - a)

/-- Line 174. -/
def batch_count (P B : Nat) : Nat := (P + B - 1) / B

/-- Lines 181-184: the list of slices taken by the batch loop, in loop order. -/
def batchSlices (pending : List Int) (B : Nat) : List (List Int) :=
  (List.range (batch_count pending.length B)).map
    (fun k => pySlice pending (k * B) (min (k * B + B) pending.length))

theorem batch_count_mul_ge (P B : Nat) (hB : 0 < B) : P ≤ batch_count P B * B := by
  have h1 : B * ((P + B - 1) / B) + (P + B - 1) % B = P + B - 1 := Nat.div_add_mod _ _
  have h2 : (P + B - 1) % B < B := Nat.mod_lt _ hB
  unfold batch_count
  rw [mul_comm] at h1
  set c := (P + B - 1) / B with hc
  set m := (P + B - 1) % B with hm
  set X := c * B with hX
  omega

theorem batch_count_pos (P B : Nat) (hP : 0 < P) (hB : 0 < B) :
    0 < batch_count P B :=
  Nat.div_pos (by omega) hB

theorem batch_count_pred_mul_lt (P B : Nat) (hP : 0 < P) (hB : 0 < B) :
    (batch_count P B - 1) * B < P := by
  have h1 : B * ((P + B - 1) / B) + (P + B - 1) % B = P + B - 1 := Nat.div_add_mod _ _
  have h2 : (P + B - 1) % B < B := Nat.mod_lt _ hB
  unfold batch_count
  rw [Nat.sub_mul, one_mul]
  rw [mul_comm] at h1
  set c := (P + B - 1) / B with hc
  set m := (P + B - 1) % B with hm
  set X := c * B with hX
  omega

theorem batchSlices_flatten_aux (l : List Int) (B : Nat) :
    ∀ n : Nat, ((List.range n).map
        (fun k => pySlice l (k * B) (min (k * B + B) l.length))).flatten =
      l.take (n * B) := by
  intro n
  induction n with
  | zero => simp
  | succ n ih =>
    rw [List.range_succ, List.map_append, List.flatten_append, ih]
    simp only [List.map_cons, List.map_nil, List.flatten_cons, List.flatten_nil,
      List.append_nil]
    rw [Nat.succ_mul, List.take_add]
    congr 1
    unfold pySlice
    apply List.take_eq_take.mpr
    rw [List.length_drop]
    set a := n * B with ha
    omega

/-- C5: for pending-list size P > 0 and batch size B > 0, the loop takes
exactly ⌈P/B⌉ contiguous slices whose concatenation in loop order is the
pending list itself (so every pending index lands in exactly one slice, in
original order); every slice before the last has size exactly B and the last
slice has size P − (⌈P/B⌉ − 1)·B. The partition is a function of the
pending list, hence deterministic. -/
theorem batch_partition (pending : List Int) (B : Nat)
    (hP : 0 < pending.length) (hB : 0 < B) :
    (batchSlices pending B).length = pending.length ⌈/⌉ B ∧
    (batchSlices pending B).flatten = pending ∧
    (∀ k : Nat, k + 1 < batch_count pending.length B →
      ((batchSlices pending B)[k]?).map List.length = some B) ∧
    ((batchSlices pending B)[batch_count pending.length B - 1]?).map
        List.length =
      some (pending.length - (batch_count pending.length B - 1) * B) := by
  have hge := batch_count_mul_ge pending.length B hB
  have hlt := batch_count_pred_mul_lt pending.length B hP hB
  have hpos := batch_count_pos pending.length B hP hB
  refine ⟨?_, ?_, ?_, ?_⟩
  · rw [batchSlices, List.length_map, List.length_range,
      Nat.ceilDiv_eq_add_pred_div]
    rfl
  · rw [batchSlices, batchSlices_flatten_aux]
    exact List.take_of_length_le hge
  · intro k hk
    have hkB : (k + 1) * B ≤ (batch_count pending.length B - 1) * B :=
      Nat.mul_le_mul_right _ (by omega)
    rw [Nat.succ_mul] at hkB
    rw [batchSlices, List.getElem?_map, List.getElem?_range (by omega)]
    show some (pySlice pending (k * B) (min (k * B + B) pending.length)).length =
      some B
    rw [pySlice, List.length_take, List.length_drop]
    congr 1
    set a := k * B with ha
    set Y := (batch_count pending.length B - 1) * B with hY
    omega
  · have hsub : (batch_count pending.length B - 1) * B =
        batch_count pending.length B * B - B := by
      rw [Nat.sub_mul, one_mul]
    have hBle : B ≤ batch_count pending.length B * B := by
      calc B = 1 * B := (one_mul B).symm
      _ ≤ batch_count pending.length B * B := Nat.mul_le_mul_right _ hpos
    rw [batchSlices, List.getElem?_map, List.getElem?_range (by omega)]
    show some (pySlice pending ((batch_count pending.length B - 1) * B)
        (min ((batch_count pending.length B - 1) * B + B) pending.length)).length =
      _
    rw [pySlice, List.length_take, List.length_drop]
    congr 1
    set a := (batch_count pending.length B - 1) * B with ha
    set X := batch_count pending.length B * B with hX
    omega

theorem batch_partition_witness :
    (batchSlices [3, 4, 5, 7, 8] 2).flatten = [3, 4, 5, 7, 8] ∧
    ((batchSlices [3, 4, 5, 7, 8] 2)[0]?).map List.length = some 2 ∧
    ((batchSlices [3, 4, 5, 7, 8] 2)[2]?).map List.length = some 1 := by
  have h := batch_partition [3, 4, 5, 7, 8] 2 (by decide) (by decide)
  refine ⟨h.2.1, h.2.2.1 0 (by decide), ?_⟩
  have h2 := h.2.2.2
  rw [show batch_count (List.length [(3 : Int), 4, 5, 7, 8]) 2 - 1 = 2 by decide] at h2
  rw [h2]
  decide

/-! ### Per-batch merge into the checkpoint (lines 193-202)

For each `(idx, clue)` in `zip(batch_indices, clues)` the loop sets
`clues_cache[str(idx)] = clue` and does `completed_set.add(idx)`; the
checkpoint then persisted is `(list(completed_set), clues_cache)`.
The clue dict is an association list keyed by index (Python dict
insertion order: replace at an existing key, else append). -/

/-- Python dict assignment `d[k] = v`. -/
def dictSet (cache : List (Nat × String)) (k : Nat) (v : String) :
    List (Nat × String) :=
  if cache.any (fun p => p.1 == k) then
    cache.map (fun p => if p.1 == k then (k, v) else p)
  else
    cache ++ [(k, v)]

def cacheKeys (cache : List (Nat × String)) : List Nat := cache.map Prod.fst

/-- Lines 194-197 restricted to the checkpoint state. -/
def mergeBatchProgress (completed_set : Finset Nat)
    (clues_cache : List (Nat × String)) (pairs : List (Nat × String)) :
    Finset Nat × List (Nat × String) :=
  pairs.foldl (fun st pr => (insert pr.1 st.1, dictSet st.2 pr.1 pr.2))
    (completed_set, clues_cache)

/-- The checkpoint invariant of C6: the clue map's key set equals the
completed-index set (keys unduplicated, so the two have equal size) and
every completed index is a valid dataset index. -/
def progressInv (N : Nat) (completed_set : Finset Nat)
    (clues_cache : List (Nat × String)) : Prop :=
  (cacheKeys clues_cache).Nodup ∧
  (cacheKeys clues_cache).toFinset = completed_set ∧
  ∀ i ∈ completed_set, i < N

theorem cacheKeys_dictSet (cache : List (Nat × String)) (k : Nat) (v : String) :
    cacheKeys (dictSet cache k v) =
      if k ∈ cacheKeys cache then cacheKeys cache else cacheKeys cache ++ [k] := by
  unfold dictSet
  by_cases h : k ∈ cacheKeys cache
  · have hc : cache.any (fun p => p.1 == k) = true := by
      rw [List.any_eq_true]
      rcases List.mem_map.mp h with ⟨p, hp, hk⟩
      exact ⟨p, hp, by simp [hk]⟩
    rw [if_pos hc, if_pos h]
    unfold cacheKeys
    rw [List.map_map]
    apply List.map_congr_left
    intro p hp
    by_cases hpk : p.1 = k
    · simp [hpk]
    · simp [hpk]
  · have hc : ¬ cache.any (fun p => p.1 == k) = true := by
      rw [List.any_eq_true]
      rintro ⟨p, hp, hpk⟩
      exact h (List.mem_map.mpr ⟨p, hp, by simpa using hpk⟩)
    rw [if_neg hc, if_neg h]
    unfold cacheKeys
    rw [List.map_append]
    rfl

theorem mergeBatchProgress_spec (N : Nat) :
    ∀ (pairs : List (Nat × String)) (completed_set : Finset Nat)
      (clues_cache : List (Nat × String)),
      progressInv N completed_set clues_cache →
      (∀ p ∈ pairs, p.1 < N) →
      progressInv N (mergeBatchProgress completed_set clues_cache pairs).1
          (mergeBatchProgress completed_set clues_cache pairs).2 ∧
      (mergeBatchProgress completed_set clues_cache pairs).1 =
        completed_set ∪ (pairs.map Prod.fst).toFinset := by
  intro pairs
  induction pairs with
  | nil =>
    intro cs cc hinv hv
    exact ⟨hinv, by simp [mergeBatchProgress]⟩
  | cons pr rest ih =>
    intro cs cc hinv hv
    have hstep : mergeBatchProgress cs cc (pr :: rest) =
        mergeBatchProgress (insert pr.1 cs) (dictSet cc pr.1 pr.2) rest := rfl
    rw [hstep]
    obtain ⟨hnd, hkeys, hvalid⟩ := hinv
    have hinv' : progressInv N (insert pr.1 cs) (dictSet cc pr.1 pr.2) := by
      refine ⟨?_, ?_, ?_⟩
      · rw [cacheKeys_dictSet]
        by_cases h : pr.1 ∈ cacheKeys cc
        · rw [if_pos h]
          exact hnd
        · rw [if_neg h, List.nodup_append]
          exact ⟨hnd, List.nodup_singleton _, List.disjoint_singleton.mpr h⟩
      · rw [cacheKeys_dictSet]
        by_cases h : pr.1 ∈ cacheKeys cc
        · rw [if_pos h, hkeys, Finset.insert_eq_self.mpr]
          rw [← hkeys]
          exact List.mem_toFinset.mpr h
        · rw [if_neg h, List.toFinset_append, hkeys]
          ext x
          simp [Or.comm]
      · intro i hi
        rcases Finset.mem_insert.mp hi with hi0 | hi'
        · rw [hi0]
          exact hv pr (List.mem_cons_self _ _)
        · exact hvalid i hi'
    have hrest := ih (insert pr.1 cs) (dictSet cc pr.1 pr.2) hinv'
      (fun p hp => hv p (List.mem_cons_of_mem _ hp))
    refine ⟨hrest.1, ?_⟩
    rw [hrest.2, List.map_cons, List.toFinset_cons]
    ext x
    simp

/-- C6: if the loaded checkpoint satisfies the invariant — clue-map key set
equal to the completed set (hence equal sizes) with every completed index a
valid dataset index — then after a batch's merge step the invariant holds
again, and the new completed set is exactly the old one united with that
batch's indices. -/
theorem merge_checkpoint_invariant (N : Nat) (completed_set : Finset Nat)
    (clues_cache : List (Nat × String)) (pairs : List (Nat × String))
    (hinv : progressInv N completed_set clues_cache)
    (hvalid : ∀ p ∈ pairs, p.1 < N) :
    progressInv N (mergeBatchProgress completed_set clues_cache pairs).1
        (mergeBatchProgress completed_set clues_cache pairs).2 ∧
    (mergeBatchProgress completed_set clues_cache pairs).1 =
      completed_set ∪ (pairs.map Prod.fst).toFinset ∧
    (mergeBatchProgress completed_set clues_cache pairs).2.length =
      (mergeBatchProgress completed_set clues_cache pairs).1.card := by
  obtain ⟨h1, h2⟩ := mergeBatchProgress_spec N pairs completed_set clues_cache hinv hvalid
  refine ⟨h1, h2, ?_⟩
  obtain ⟨hnd, hkeys, _⟩ := h1
  rw [← hkeys, List.toFinset_card_of_nodup hnd]
  unfold cacheKeys
  rw [List.length_map]

theorem merge_checkpoint_invariant_witness :
    (mergeBatchProgress {0} [(0, "a")] [(1, "b"), (2, "c")]).1 =
      ({0, 1, 2} : Finset Nat) ∧
    (mergeBatchProgress {0} [(0, "a")] [(1, "b"), (2, "c")]).2.length = 3 := by
  have h := merge_checkpoint_invariant 3 {0} [(0, "a")] [(1, "b"), (2, "c")]
    (by unfold progressInv; exact ⟨by decide, by decide, by decide⟩)
    (by decide)
  constructor
  · rw [h.2.1]
    decide
  · rw [h.2.2, h.2.1]
    decide

/-! ### Final commit (lines 215-227)

After the batch loop the script writes the final dataset artifact
(`json.dump(data, f)` into OUTPUT_FILE) and only afterwards removes the
progress file, guarded by `os.path.exists`.  The commit is modelled as
the straight-line effect trace of those statements; an interrupted run
executes a prefix of the trace. -/

inductive CommitEffect where
  | writeDataset
  | removeCheckpoint
deriving DecidableEq, Repr

/-- Lines 222-227: write the dataset, then remove the checkpoint file
if it exists. -/
def finalCommitEffects (checkpoint_exists : Bool) : List CommitEffect :=
  [CommitEffect.writeDataset] ++
    (if checkpoint_exists then [CommitEffect.removeCheckpoint] else [])

structure ArtifactState where
  datasetWritten : Bool
  checkpointPresent : Bool
deriving DecidableEq, Repr

def applyCommitEffect (s : ArtifactState) : CommitEffect → ArtifactState
  | CommitEffect.writeDataset => { s with datasetWritten := true }
  | CommitEffect.removeCheckpoint => { s with checkpointPresent := false }

def runCommit (s : ArtifactState) (effs : List CommitEffect) : ArtifactState :=
  effs.foldl applyCommitEffect s

/-- C7: in every run reaching final commit, the dataset artifact is written
strictly before the checkpoint file is removed — every effect prefix that
contains the removal already contains the dataset write — and after the
full commit the dataset is written and the checkpoint artifact is absent. -/
theorem final_commit_order (cp d0 : Bool) :
    (runCommit ⟨d0, cp⟩ (finalCommitEffects cp)).datasetWritten = true ∧
    (runCommit ⟨d0, cp⟩ (finalCommitEffects cp)).checkpointPresent = false ∧
    ∀ n : Nat, CommitEffect.removeCheckpoint ∈ (finalCommitEffects cp).take n →
      CommitEffect.writeDataset ∈ (finalCommitEffects cp).take n := by
  cases cp with
  | false =>
    refine ⟨rfl, rfl, ?_⟩
    intro n hn
    exfalso
    have hsub : (finalCommitEffects false).take n ⊆ [CommitEffect.writeDataset] :=
      List.Subset.trans (List.take_subset _ _) (by intro x hx; exact hx)
    have := hsub hn
    simp at this
  | true =>
    refine ⟨rfl, rfl, ?_⟩
    intro n hn
    match n with
    | 0 => simp [finalCommitEffects] at hn
    | 1 => simp [finalCommitEffects] at hn
    | Nat.succ (Nat.succ m) =>
      have : (finalCommitEffects true).take (m + 2) = finalCommitEffects true := by
        apply List.take_of_length_le
        simp [finalCommitEffects]
      rw [this]
      simp [finalCommitEffects]

theorem final_commit_order_witness :
    CommitEffect.writeDataset ∈ (finalCommitEffects true).take 2 :=
  (final_commit_order true false).2.2 2 (by decide)

/-! ### Per-batch merge into the in-memory dataset (lines 193-197, 218-223)

`words[idx]['clue'] = clue` is the only mutation the batch loop applies to
the dataset; the metadata keys `cluesGeneratedAt` and `cluesModel` are set
once, at final commit (lines 219-220). -/

structure WordEntry where
  word : String
  clue : Option String
  length : Nat
  distinctLetters : Nat
deriving DecidableEq, Repr

structure DatasetMetadata where
  cluesGeneratedAt : Option String
  cluesModel : Option String
deriving DecidableEq, Repr

structure Dataset where
  metadata : DatasetMetadata
  words : List WordEntry
deriving DecidableEq, Repr

/-- Line 195: `words[idx]['clue'] = clue` — replaces only the clue field of
the entry at the given (in-range) index. -/
def setClue : List WordEntry → Nat → String → List WordEntry
  | [], _, _ => []
  | e :: rest, 0, c => { e with clue := some c } :: rest
  | e :: rest, Nat.succ n, c => e :: setClue rest n c

/-- Lines 194-195 over the in-memory word list, one batch's
`zip(batch_indices, clues)` pairs in order. -/
def mergeBatchWords (words : List WordEntry) (pairs : List (Nat × String)) :
    List WordEntry :=
  pairs.foldl (fun ws pr => setClue ws pr.1 pr.2) words

/-- The per-batch merge step acting on the dataset value: only the word
list is touched. -/
def mergeBatchData (data : Dataset) (pairs : List (Nat × String)) : Dataset :=
  { data with words := mergeBatchWords data.words pairs }

/-- Lines 219-220: the metadata stamping done once at final commit. -/
def stampMetadata (data : Dataset) (now : String) : Dataset :=
  { data with metadata :=
      { data.metadata with cluesGeneratedAt := some now, cluesModel := some MODEL } }

theorem setClue_getElem?_ne (ws : List WordEntry) :
    ∀ (i : Nat) (c : String) (j : Nat), j ≠ i →
      (setClue ws i c)[j]? = ws[j]? := by
  induction ws with
  | nil => intro i c j _; rfl
  | cons e rest ih =>
    intro i c j hj
    cases i with
    | zero =>
      cases j with
      | zero => exact absurd rfl hj
      | succ m => simp only [setClue, List.getElem?_cons_succ]
    | succ n =>
      cases j with
      | zero => simp only [setClue, List.getElem?_cons_zero]
      | succ m =>
        simp only [setClue, List.getElem?_cons_succ]
        exact ih n c m (by omega)

theorem setClue_fields (ws : List WordEntry) :
    ∀ (i : Nat) (c : String) (j : Nat),
      ((setClue ws i c)[j]?).map WordEntry.word = (ws[j]?).map WordEntry.word ∧
      ((setClue ws i c)[j]?).map WordEntry.length = (ws[j]?).map WordEntry.length ∧
      ((setClue ws i c)[j]?).map WordEntry.distinctLetters =
        (ws[j]?).map WordEntry.distinctLetters ∧
      (setClue ws i c).length = ws.length := by
  induction ws with
  | nil => intro i c j; exact ⟨rfl, rfl, rfl, rfl⟩
  | cons e rest ih =>
    intro i c j
    cases i with
    | zero =>
      cases j with
      | zero => simp [setClue]
      | succ m => simp [setClue]
    | succ n =>
      cases j with
      | zero => simpa [setClue] using (ih n c 0).2.2.2
      | succ m =>
        have := ih n c m
        simpa [setClue] using this

theorem mergeBatchWords_getElem?_ne (pairs : List (Nat × String)) :
    ∀ (ws : List WordEntry) (j : Nat), j ∉ pairs.map Prod.fst →
      (mergeBatchWords ws pairs)[j]? = ws[j]? := by
  induction pairs with
  | nil => intro ws j _; rfl
  | cons pr rest ih =>
    intro ws j hj
    simp only [List.map_cons, List.mem_cons, not_or] at hj
    have hstep : mergeBatchWords ws (pr :: rest) =
        mergeBatchWords (setClue ws pr.1 pr.2) rest := rfl
    rw [hstep, ih _ j hj.2, setClue_getElem?_ne ws pr.1 pr.2 j hj.1]

theorem mergeBatchWords_fields (pairs : List (Nat × String)) :
    ∀ (ws : List WordEntry) (j : Nat),
      ((mergeBatchWords ws pairs)[j]?).map WordEntry.word =
        (ws[j]?).map WordEntry.word ∧
      ((mergeBatchWords ws pairs)[j]?).map WordEntry.length =
        (ws[j]?).map WordEntry.length ∧
      ((mergeBatchWords ws pairs)[j]?).map WordEntry.distinctLetters =
        (ws[j]?).map WordEntry.distinctLetters ∧
      (mergeBatchWords ws pairs).length = ws.length := by
  induction pairs with
  | nil => intro ws j; exact ⟨rfl, rfl, rfl, rfl⟩
  | cons pr rest ih =>
    intro ws j
    have hstep : mergeBatchWords ws (pr :: rest) =
        mergeBatchWords (setClue ws pr.1 pr.2) rest := rfl
    have h1 := ih (setClue ws pr.1 pr.2) j
    have h2 := setClue_fields ws pr.1 pr.2 j
    refine ⟨?_, ?_, ?_, ?_⟩
    · rw [hstep, h1.1, h2.1]
    · rw [hstep, h1.2.1, h2.2.1]
    · rw [hstep, h1.2.2.1, h2.2.2.1]
    · rw [hstep, h1.2.2.2, h2.2.2.2]

/-- C10: the per-batch merge changes only the clue fields of the entries at
that batch's indices — the metadata, every entry at an index outside the
batch, and the word, length and distinctLetters fields of every entry are
unchanged, as is the word count; the metadata keys are stamped only by the
final-commit step, which in turn leaves the word list unchanged. -/
theorem merge_frame (data : Dataset) (pairs : List (Nat × String)) (now : String) :
    (mergeBatchData data pairs).metadata = data.metadata ∧
    (∀ j : Nat, j ∉ pairs.map Prod.fst →
      (mergeBatchData data pairs).words[j]? = data.words[j]?) ∧
    (∀ j : Nat,
      ((mergeBatchData data pairs).words[j]?).map WordEntry.word =
        (data.words[j]?).map WordEntry.word ∧
      ((mergeBatchData data pairs).words[j]?).map WordEntry.length =
        (data.words[j]?).map WordEntry.length ∧
      ((mergeBatchData data pairs).words[j]?).map WordEntry.distinctLetters =
        (data.words[j]?).map WordEntry.distinctLetters) ∧
    (mergeBatchData data pairs).words.length = data.words.length ∧
    (stampMetadata data now).words = data.words := by
  refine ⟨rfl, ?_, ?_, ?_, rfl⟩
  · intro j hj
    exact mergeBatchWords_getElem?_ne pairs data.words j hj
  · intro j
    have h := mergeBatchWords_fields pairs data.words j
    exact ⟨h.1, h.2.1, h.2.2.1⟩
  · exact (mergeBatchWords_fields pairs data.words 0).2.2.2

theorem merge_frame_witness :
    (mergeBatchData ⟨⟨none, none⟩, [⟨"cat", none, 3, 3⟩, ⟨"door", none, 4, 4⟩]⟩
        [(0, "pet")]).words[1]? = some ⟨"door", none, 4, 4⟩ := by
  have h := merge_frame ⟨⟨none, none⟩, [⟨"cat", none, 3, 3⟩, ⟨"door", none, 4, 4⟩]⟩
    [(0, "pet")] "t"
  rw [h.2.1 1 (by decide)]
  rfl

end GenerateClues
